import Mathlib

/-!
Shallow embedding of the two utility scripts of the community-pulse
repository.

* `src/.github/scripts/extract_plist.py` — reads a binary provisioning
  profile, searches the bytes with the greedy regex `<\?xml.*</plist>`
  (DOTALL), writes the matched span to the output file and exits 0, or
  prints diagnostics and exits 1.
* `src/scripts/clean_secrets.py` — for each file of a hardcoded list,
  searches its text for the leftmost match of `MII[A-Za-z0-9+/= \r\n\\]+`,
  strips the class `[\r\n\s\\]` from the match and writes the result to a
  sibling file with a derived name, printing a per-file status message.

Bytes and text characters are both modelled as `List Char`; file contents
are supplied directly (a file system is a partial map from path to
content).
-/

namespace CommunityPulse

/-- The 5 bytes of the XML declaration marker `<?xml`. -/
def xmlDecl : List Char := ['<', '?', 'x', 'm', 'l']

/-- The 8 bytes of the closing plist tag `</plist>`. -/
def plistEnd : List Char := ['<', '/', 'p', 'l', 'i', 's', 't', '>']

/-- `occursAt pat s i` holds when `pat` occurs in `s` starting at index `i`. -/
def occursAt (pat s : List Char) (i : Nat) : Bool := decide (pat <+: s.drop i)

/-- Least index `k < n` satisfying `p`, scanning positions the way a regex
engine scans match start positions. -/
def findFirstBelow (p : Nat → Bool) : Nat → Option Nat
  | 0 => none
  | n + 1 =>
    match findFirstBelow p n with
    | some i => some i
    | none => if p n then some n else none

/-- Greatest index `k < n` satisfying `p`. -/
def findLastBelow (p : Nat → Bool) : Nat → Option Nat
  | 0 => none
  | n + 1 => if p n then some n else findLastBelow p n

/-- Start index of the last occurrence of `</plist>` at or after `lo`:
the end reached by the greedy `.*` of the extraction pattern. -/
def lastEndFrom (data : List Char) (lo : Nat) : Option Nat :=
  findLastBelow (fun j => decide (lo ≤ j) && occursAt plistEnd data j) data.length

/-- Whether the regex `<\?xml.*</plist>` (DOTALL) can match starting at
index `i`: the declaration marker occurs at `i` and some closing tag starts
at or after `i + 5`. -/
def canMatchAt (data : List Char) (i : Nat) : Bool :=
  occursAt xmlDecl data i && (lastEndFrom data (i + 5)).isSome

/-- `re.search(rb'<\?xml.*</plist>', data, re.DOTALL)` of
extract_plist.py lines 20-24: leftmost match start, greedy match end,
returning the matched span. -/
def extractPlist (data : List Char) : Option (List Char) :=
  match findFirstBelow (canMatchAt data) data.length with
  | none => none
  | some i =>
    match lastEndFrom data (i + 5) with
    | none => none
    | some j => some ((data.drop i).take (j + 8 - i))

/-- The membership test of the debug branch of extract_plist.py. -/
def hasXmlDecl (data : List Char) : Bool :=
  (findFirstBelow (occursAt xmlDecl data) data.length).isSome

/-- Observable outcome of one run of extract_plist.py: the process exit
code, the content written to the output file (if any write happened), and
whether the diagnostic line "NO <?xml found in data!" was printed. -/
structure ExtractRun where
  exitCode : Nat
  written : Option (List Char)
  printedNoXml : Bool
deriving DecidableEq

/-- One run of extract_plist.py, given `len(sys.argv)` and the bytes of the
input file. With the wrong argument count the script prints a usage line
and exits 1 before touching any file; otherwise it extracts, writes and
exits 0 on a match, and on failure prints diagnostics — among them
"NO <?xml found in data!" exactly when the marker is absent — and exits 1. -/
def runExtract (argc : Nat) (data : List Char) : ExtractRun :=
  if argc ≠ 3 then ⟨1, none, false⟩
  else
    match extractPlist data with
    | some content => ⟨0, some content, false⟩
    | none => ⟨1, none, !hasXmlDecl data⟩

/-- The base64 alphabet `[A-Za-z0-9+/=]`. -/
def b64Char (c : Char) : Bool :=
  ('A' ≤ c && c ≤ 'Z') || ('a' ≤ c && c ≤ 'z') || ('0' ≤ c && c ≤ '9') ||
    c == '+' || c == '/' || c == '='

/-- The character class of the search pattern `MII[A-Za-z0-9+/= \r\n\\]+`. -/
def runClass (c : Char) : Bool :=
  b64Char c || c == ' ' || c == '\r' || c == '\n' || c == '\\'

/-- The class `[\r\n\s\\]` removed by the `re.sub` call: ASCII whitespace
together with the backslash. -/
def stripClass (c : Char) : Bool :=
  c == '\r' || c == '\n' || c == ' ' || c == '\t' || c == '\x0b' ||
    c == '\x0c' || c == '\\'

/-- Match of `MII[A-Za-z0-9+/= \r\n\\]+` anchored at the start of `s`:
the literal `MII` followed by a maximal nonempty run of class characters. -/
def matchRun (s : List Char) : Option (List Char) :=
  if decide (['M', 'I', 'I'] <+: s) then
    if ((s.drop 3).takeWhile runClass).isEmpty then none
    else some ('M' :: 'I' :: 'I' :: (s.drop 3).takeWhile runClass)
  else none

/-- Whether the pattern can match at index `i` of `s`. -/
def matchStartAt (s : List Char) (i : Nat) : Bool :=
  decide (['M', 'I', 'I'] <+: s.drop i) &&
    !((s.drop (i + 3)).takeWhile runClass).isEmpty

/-- The `re.search` scan: try the anchored match at every position, left to
right. -/
def searchMII : List Char → Option (List Char)
  | [] => none
  | c :: rest =>
    match matchRun (c :: rest) with
    | some r => some r
    | none => searchMII rest

/-- clean_secrets.py lines 4-21 with the file content passed directly:
search for the leftmost match of `MII[A-Za-z0-9+/= \r\n\\]+` and strip
every `[\r\n\s\\]` character from it; `none` when there is no match. -/
def clean_rtf_to_base64 (content : List Char) : Option (List Char) :=
  match searchMII content with
  | none => none
  | some raw => some (raw.filter (fun c => !stripClass c))

/-- The hardcoded input directory of clean_secrets.py. -/
def base_dir : String :=
  "c:\\Users\\adity\\Downloads\\App5156\\community-pulse\\iOS Secrets"

/-- The hardcoded input file list of clean_secrets.py. -/
def secretFiles : List String := ["p12_base64.txt.rtf", "profile_base64.txt.rtf"]

/-- Python `str.replace`: replace every non-overlapping occurrence of `pat`
by `repl`, scanning left to right. The fuel bounds the recursion and is
instantiated with the length of the string, which suffices whenever `pat`
is nonempty. -/
def replaceAllAux (pat repl : List Char) : Nat → List Char → List Char
  | 0, s => s
  | _ + 1, [] => []
  | fuel + 1, c :: rest =>
    if decide (pat ≠ [] ∧ pat <+: c :: rest) then
      repl ++ replaceAllAux pat repl fuel ((c :: rest).drop pat.length)
    else c :: replaceAllAux pat repl fuel rest

/-- `s.replace(pat, repl)` on strings. -/
def replaceAll (s pat repl : String) : String :=
  String.mk (replaceAllAux pat.toList repl.toList s.toList.length s.toList)

/-- `os.path.join(base_dir, name)` for the script's Windows-style base
path. -/
def joinPath (d f : String) : String := d ++ "\\" ++ f

/-- The derived output filename `filename.replace(".txt.rtf", "_clean.txt")`. -/
def outName (f : String) : String := replaceAll f ".txt.rtf" "_clean.txt"

/-- Observable per-file outcome of the clean_secrets.py loop body.
`cleaned f out c` records the "Cleaned ..." console message together with
the write of `c` to the path `out`; `failed f` records the
"Failed to clean ..." message, with no write; `crashed f` records an
uncaught `FileNotFoundError` raised while opening `f`. -/
inductive CleanEvent where
  | cleaned : String → String → List Char → CleanEvent
  | failed : String → CleanEvent
  | crashed : String → CleanEvent
deriving DecidableEq

/-- One iteration of the loop of clean_secrets.py: open and read the file
(`none` models the uncaught `FileNotFoundError` of a missing file), clean
the content, and on success write the cleaned text to the derived sibling
path. -/
def processFile (fs : String → Option (List Char)) (f : String) :
    Option CleanEvent :=
  match fs (joinPath base_dir f) with
  | none => none
  | some content =>
    match clean_rtf_to_base64 content with
    | some cleaned => some (CleanEvent.cleaned f (joinPath base_dir (outName f)) cleaned)
    | none => some (CleanEvent.failed f)

/-- The `for filename in files` loop of clean_secrets.py: an uncaught
exception aborts the whole script, so a missing file stops the processing
of every remaining file. -/
def runLoop (fs : String → Option (List Char)) : List String → List CleanEvent
  | [] => []
  | f :: rest =>
    match processFile fs f with
    | none => [CleanEvent.crashed f]
    | some e => e :: runLoop fs rest

/-- One run of clean_secrets.py over the hardcoded file list, given the
contents of the file system. -/
def runCleaner (fs : String → Option (List Char)) : List CleanEvent :=
  runLoop fs secretFiles

section SearchLemmas

theorem findFirstBelow_none (p : Nat → Bool) :
    ∀ n, (∀ k < n, p k = false) → findFirstBelow p n = none := by
  intro n
  induction n with
  | zero => intro _; rfl
  | succ m ih =>
    intro h
    have hm : findFirstBelow p m = none := ih fun k hk => h k (Nat.lt_succ_of_lt hk)
    simp only [findFirstBelow, hm]
    rw [h m (Nat.lt_succ_self m)]
    rfl

theorem findFirstBelow_eq_some (p : Nat → Bool) {i : Nat} :
    ∀ n, i < n → p i = true → (∀ k < i, p k = false) →
      findFirstBelow p n = some i := by
  intro n
  induction n with
  | zero => intro h; exact absurd h (Nat.not_lt_zero i)
  | succ m ih =>
    intro hlt hp hmin
    rcases Nat.lt_succ_iff_lt_or_eq.mp hlt with h | h
    · have := ih h hp hmin
      simp only [findFirstBelow, this]
    · subst h
      have hm : findFirstBelow p i = none := findFirstBelow_none p i hmin
      simp only [findFirstBelow, hm]
      rw [hp]
      simp

theorem findLastBelow_eq_some (p : Nat → Bool) {j : Nat} :
    ∀ n, j < n → p j = true → (∀ k, j < k → k < n → p k = false) →
      findLastBelow p n = some j := by
  intro n
  induction n with
  | zero => intro h; exact absurd h (Nat.not_lt_zero j)
  | succ m ih =>
    intro hlt hp hmax
    rcases Nat.lt_succ_iff_lt_or_eq.mp hlt with h | h
    · have hm : p m = false := hmax m h (Nat.lt_succ_self m)
      simp only [findLastBelow, hm]
      exact ih h hp fun k hk hk2 => hmax k hk (Nat.lt_succ_of_lt hk2)
    · subst h
      simp only [findLastBelow, hp]
      simp

theorem occursAt_iff {pat s : List Char} {i : Nat} :
    occursAt pat s i = true ↔ pat <+: s.drop i := by
  simp [occursAt]

theorem occursAt_bound {pat s : List Char} {i : Nat} (hne : pat ≠ [])
    (h : occursAt pat s i = true) : i + pat.length ≤ s.length := by
  have hp := occursAt_iff.mp h
  have h1 : pat.length ≤ (s.drop i).length := hp.length_le
  rw [List.length_drop] at h1
  have h2 : 0 < pat.length := List.length_pos.mpr hne
  omega

/-- An occurrence of `</plist>` strictly after an occurrence of `<?xml`
starts at least 5 bytes later: the tag bytes clash with each byte of the
marker. -/
theorem xml_plist_sep {data : List Char} {i j : Nat}
    (hx : occursAt xmlDecl data i = true)
    (hp : occursAt plistEnd data j = true) (hij : i < j) : i + 5 ≤ j := by
  by_contra hcon
  obtain ⟨t, ht⟩ := occursAt_iff.mp hx
  obtain ⟨u, hu⟩ := occursAt_iff.mp hp
  have hdrop : data.drop j = (data.drop i).drop (j - i) := by
    rw [List.drop_drop]
    congr 1
    omega
  rw [hdrop, ← ht] at hu
  have hd : j - i = 1 ∨ j - i = 2 ∨ j - i = 3 ∨ j - i = 4 := by omega
  rcases hd with h | h | h | h <;>
    · rw [h] at hu
      simp [xmlDecl, plistEnd] at hu

end SearchLemmas

/-- C1: for every input containing an occurrence of `<?xml` followed later
by an occurrence of `</plist>`, the Plist Extractor writes to the output
file exactly the contiguous span starting at the first occurrence of
`<?xml` and extending through the end of the last occurrence of `</plist>`
after it, verbatim, and exits with status 0. -/
theorem extract_first_to_last_span (data : List Char) (i j : Nat)
    (hx : occursAt xmlDecl data i = true)
    (hp : occursAt plistEnd data j = true) (hij : i < j) :
    ∃ i0 j0,
      occursAt xmlDecl data i0 = true ∧
      (∀ k < i0, occursAt xmlDecl data k = false) ∧
      occursAt plistEnd data j0 = true ∧ i0 < j0 ∧
      (∀ k, j0 < k → occursAt plistEnd data k = false) ∧
      runExtract 3 data =
        ⟨0, some ((data.drop i0).take (j0 + 8 - i0)), false⟩ := by
  have hplen : plistEnd.length = 8 := rfl
  have hxlen : xmlDecl.length = 5 := rfl
  have hex : ∃ k, occursAt xmlDecl data k = true := ⟨i, hx⟩
  set i0 := Nat.find hex with hi0def
  have hx0 : occursAt xmlDecl data i0 = true := Nat.find_spec hex
  have hmin : ∀ k < i0, occursAt xmlDecl data k = false := by
    intro k hk
    exact Bool.eq_false_iff.mpr (Nat.find_min hex hk)
  have hile : i0 ≤ i := Nat.find_min' hex hx
  have hj8 : j + 8 ≤ data.length := by
    have := occursAt_bound (by decide) hp
    omega
  set j0 := Nat.findGreatest (fun k => occursAt plistEnd data k = true)
    data.length with hj0def
  have hj0 : occursAt plistEnd data j0 = true := by
    rw [hj0def]
    exact Nat.findGreatest_spec (P := fun k => occursAt plistEnd data k = true)
      (m := j) (n := data.length) (by omega) hp
  have hjge : j ≤ j0 := by
    rw [hj0def]
    exact Nat.le_findGreatest (P := fun k => occursAt plistEnd data k = true)
      (n := data.length) (by omega) hp
  have hij0 : i0 < j0 := by omega
  have hsep : i0 + 5 ≤ j0 := xml_plist_sep hx0 hj0 hij0
  have hj0max : ∀ k, j0 < k → occursAt plistEnd data k = false := by
    intro k hk
    by_cases hkle : k ≤ data.length
    · have hk2 : Nat.findGreatest (fun k => occursAt plistEnd data k = true)
          data.length < k := by
        rw [← hj0def]
        exact hk
      have hng := Nat.findGreatest_is_greatest
        (P := fun k => occursAt plistEnd data k = true) hk2 hkle
      exact Bool.eq_false_iff.mpr hng
    · cases hb : occursAt plistEnd data k with
      | false => rfl
      | true =>
        have := occursAt_bound (by decide) hb
        omega
  have hj0len : j0 + 8 ≤ data.length := by
    have := occursAt_bound (by decide) hj0
    omega
  have hlast : lastEndFrom data (i0 + 5) = some j0 := by
    unfold lastEndFrom
    refine findLastBelow_eq_some _ _ (by omega) ?_ ?_
    · simp only [Bool.and_eq_true, decide_eq_true_eq]
      exact ⟨hsep, hj0⟩
    · intro k hk _
      simp [hj0max k hk]
  have hcan : canMatchAt data i0 = true := by
    simp [canMatchAt, hx0, hlast]
  have hcanmin : ∀ k < i0, canMatchAt data k = false := by
    intro k hk
    simp [canMatchAt, hmin k hk]
  have hi0len : i0 + 5 ≤ data.length := by
    have := occursAt_bound (by decide) hx0
    omega
  have hfirst : findFirstBelow (canMatchAt data) data.length = some i0 :=
    findFirstBelow_eq_some _ data.length (by omega) hcan hcanmin
  have hextract : extractPlist data
      = some ((data.drop i0).take (j0 + 8 - i0)) := by
    simp only [extractPlist, hfirst, hlast]
  exact ⟨i0, j0, hx0, hmin, hj0, hij0, hj0max, by simp [runExtract, hextract]⟩

/-- Witness for C1: the thirteen-byte input `<?xml</plist>`. -/
theorem extract_first_to_last_span_witness :
    ∃ i0 j0,
      occursAt xmlDecl ['<', '?', 'x', 'm', 'l', '<', '/', 'p', 'l', 'i', 's', 't', '>'] i0 = true ∧
      (∀ k < i0, occursAt xmlDecl ['<', '?', 'x', 'm', 'l', '<', '/', 'p', 'l', 'i', 's', 't', '>'] k = false) ∧
      occursAt plistEnd ['<', '?', 'x', 'm', 'l', '<', '/', 'p', 'l', 'i', 's', 't', '>'] j0 = true ∧ i0 < j0 ∧
      (∀ k, j0 < k → occursAt plistEnd ['<', '?', 'x', 'm', 'l', '<', '/', 'p', 'l', 'i', 's', 't', '>'] k = false) ∧
      runExtract 3 ['<', '?', 'x', 'm', 'l', '<', '/', 'p', 'l', 'i', 's', 't', '>'] =
        ⟨0, some ((['<', '?', 'x', 'm', 'l', '<', '/', 'p', 'l', 'i', 's', 't', '>'].drop i0).take (j0 + 8 - i0)), false⟩ :=
  extract_first_to_last_span
    ['<', '?', 'x', 'm', 'l', '<', '/', 'p', 'l', 'i', 's', 't', '>'] 0 5
    (by decide) (by decide) (by decide)

section CleanerLemmas

theorem strip_not_b64 {c : Char} (h : stripClass c = true) : b64Char c = false := by
  simp only [stripClass, Bool.or_eq_true, beq_iff_eq] at h
  rcases h with ((((((h2 | h2) | h2) | h2) | h2) | h2) | h2) <;> subst h2 <;>
    decide

theorem run_not_strip (c : Char) (h : runClass c = true) :
    (!stripClass c) = b64Char c := by
  by_cases hs : stripClass c = true
  · simp [hs, strip_not_b64 hs]
  · have hs' : stripClass c = false := Bool.eq_false_iff.mpr hs
    rw [hs']
    simp only [runClass, Bool.or_eq_true, beq_iff_eq] at h
    rcases h with ((((h2 | h2) | h2) | h2) | h2)
    · simp [h2]
    all_goals (subst h2; exact absurd hs' (by decide))

theorem filter_strip_eq_b64 : ∀ l : List Char, (∀ c ∈ l, runClass c = true) →
    l.filter (fun c => !stripClass c) = l.filter b64Char := by
  intro l
  induction l with
  | nil => intro _; rfl
  | cons x xs ih =>
    intro h
    have hx : (!stripClass x) = b64Char x := run_not_strip x (h x (by simp))
    have hxs := ih fun c hc => h c (by simp [hc])
    simp only [List.filter_cons, hx, hxs]

theorem takeWhile_all_append {q : Char → Bool} :
    ∀ a b : List Char, (∀ c ∈ a, q c = true) →
      (∀ c, b.head? = some c → q c = false) →
      (a ++ b).takeWhile q = a := by
  intro a
  induction a with
  | nil =>
    intro b _ hb
    cases b with
    | nil => rfl
    | cons x xs =>
      have hx := hb x rfl
      simp [List.takeWhile_cons, hx]
  | cons x xs ih =>
    intro b ha hb
    have hx : q x = true := ha x (by simp)
    have hxs := ih b (fun c hc => ha c (by simp [hc])) hb
    simp [List.takeWhile_cons, hx, hxs]

theorem mem_takeWhile_class {q : Char → Bool} :
    ∀ (l : List Char) (c : Char), c ∈ l.takeWhile q → q c = true := by
  intro l
  induction l with
  | nil => intro c hc; simp [List.takeWhile] at hc
  | cons x xs ih =>
    intro c hc
    rw [List.takeWhile_cons] at hc
    by_cases hx : q x = true
    · rw [if_pos hx] at hc
      rcases List.mem_cons.mp hc with h | h
      · subst h; exact hx
      · exact ih c h
    · rw [if_neg hx] at hc
      simp at hc

theorem matchRun_some {s r : List Char} (h : matchRun s = some r) :
    ∃ t, s = 'M' :: 'I' :: 'I' :: t ∧
      r = 'M' :: 'I' :: 'I' :: t.takeWhile runClass := by
  unfold matchRun at h
  split at h
  · split at h
    · exact absurd h (by simp)
    · rename_i hpre _
      obtain ⟨t, ht⟩ := of_decide_eq_true hpre
      refine ⟨t, by rw [← ht]; rfl, ?_⟩
      have h2 := Option.some.inj h
      rw [← h2, ← ht]
      rfl
  · exact absurd h (by simp)

theorem matchRun_none {s : List Char} (h : matchStartAt s 0 = false) :
    matchRun s = none := by
  by_cases hpre : ['M', 'I', 'I'] <+: s
  · by_cases hemp : ((s.drop 3).takeWhile runClass).isEmpty = true
    · simp [matchRun, hpre, hemp]
    · exfalso
      have hemp' : ((s.drop 3).takeWhile runClass).isEmpty = false :=
        Bool.eq_false_iff.mpr hemp
      have htrue : matchStartAt s 0 = true := by
        unfold matchStartAt
        simp [List.drop_zero, hpre, hemp']
      rw [h] at htrue
      exact Bool.false_ne_true htrue
  · simp [matchRun, hpre]

theorem matchRun_at_start (body t : List Char) (hne : body ≠ [])
    (hcl : ∀ c ∈ body, runClass c = true)
    (ht : ∀ c, t.head? = some c → runClass c = false) :
    matchRun ('M' :: 'I' :: 'I' :: (body ++ t))
      = some ('M' :: 'I' :: 'I' :: body) := by
  have hpre : ['M', 'I', 'I'] <+: 'M' :: 'I' :: 'I' :: (body ++ t) :=
    ⟨body ++ t, rfl⟩
  have htw : (('M' :: 'I' :: 'I' :: (body ++ t)).drop 3).takeWhile runClass
      = body := takeWhile_all_append body t hcl ht
  unfold matchRun
  rw [if_pos (decide_eq_true hpre), htw,
    if_neg (by simp [List.isEmpty_iff]; exact hne)]

theorem matchStartAt_cons (c : Char) (s : List Char) (i : Nat) :
    matchStartAt (c :: s) (i + 1) = matchStartAt s i := rfl

theorem matchStartAt_ge {s : List Char} {i : Nat} (h : s.length ≤ i) :
    matchStartAt s i = false := by
  unfold matchStartAt
  have hd : s.drop i = [] := List.drop_eq_nil_of_le h
  rw [hd]
  simp

theorem noRunAll (s : List Char)
    (h : ∀ i < s.length, matchStartAt s i = false) :
    ∀ i, matchStartAt s i = false := by
  intro i
  by_cases hi : i < s.length
  · exact h i hi
  · exact matchStartAt_ge (by omega)

theorem searchMII_cons_none {c : Char} {rest : List Char}
    (h : matchRun (c :: rest) = none) :
    searchMII (c :: rest) = searchMII rest := by
  simp only [searchMII, h]

theorem searchMII_skip : ∀ p s : List Char,
    (∀ i, i < p.length → matchStartAt (p ++ s) i = false) →
    searchMII (p ++ s) = searchMII s := by
  intro p
  induction p with
  | nil => intro s _; rfl
  | cons c p2 ih =>
    intro s h
    have h0 : matchStartAt (c :: (p2 ++ s)) 0 = false := h 0 (by simp)
    show searchMII (c :: (p2 ++ s)) = searchMII s
    rw [searchMII_cons_none (matchRun_none h0)]
    refine ih s fun i hi => ?_
    have h1 := h (i + 1) (by simp; omega)
    rw [← matchStartAt_cons c (p2 ++ s) i]
    exact h1

theorem searchMII_none : ∀ s : List Char,
    (∀ i, matchStartAt s i = false) → searchMII s = none := by
  intro s
  induction s with
  | nil => intro _; rfl
  | cons c rest ih =>
    intro h
    rw [searchMII_cons_none (matchRun_none (h 0))]
    refine ih fun i => ?_
    have h1 := h (i + 1)
    rwa [matchStartAt_cons] at h1

theorem searchMII_some : ∀ s raw : List Char, searchMII s = some raw →
    ∃ u, raw = 'M' :: 'I' :: 'I' :: u ∧ ∀ c ∈ u, runClass c = true := by
  intro s
  induction s with
  | nil => intro raw h; simp [searchMII] at h
  | cons c rest ih =>
    intro raw h
    cases hm : matchRun (c :: rest) with
    | some r2 =>
      simp only [searchMII, hm, Option.some.injEq] at h
      obtain ⟨t, _, hr⟩ := matchRun_some hm
      subst h
      exact ⟨t.takeWhile runClass, hr,
        fun c2 hc2 => mem_takeWhile_class t c2 hc2⟩
    | none =>
      simp only [searchMII, hm] at h
      exact ih raw h

theorem searchMII_within : ∀ s r : List Char, searchMII s = some r →
    r <:+: s := by
  intro s
  induction s with
  | nil => intro r h; simp [searchMII] at h
  | cons c rest ih =>
    intro r h
    cases hm : matchRun (c :: rest) with
    | some r2 =>
      simp only [searchMII, hm, Option.some.injEq] at h
      obtain ⟨t, hs, hr⟩ := matchRun_some hm
      refine ⟨[], t.dropWhile runClass, ?_⟩
      rw [hs, ← h, hr]
      simp [List.takeWhile_append_dropWhile]
    | none =>
      simp only [searchMII, hm] at h
      exact List.infix_cons (ih r h)

end CleanerLemmas

/-- C2: for every text containing a run beginning with `MII` and continuing
through base64-alphabet characters interspersed with backslash, space,
carriage-return and newline (here: the leftmost, maximal such run),
clean_rtf_to_base64 returns exactly the base64 characters of that run in
their original order with every interspersed character removed. -/
theorem clean_extracts_run (p body t : List Char) (hne : body ≠ [])
    (hcl : ∀ c ∈ body, runClass c = true)
    (hleft : ∀ i, i < p.length →
      matchStartAt (p ++ ('M' :: 'I' :: 'I' :: (body ++ t))) i = false)
    (ht : ∀ c, t.head? = some c → runClass c = false) :
    clean_rtf_to_base64 (p ++ ('M' :: 'I' :: 'I' :: (body ++ t)))
      = some (('M' :: 'I' :: 'I' :: body).filter b64Char) := by
  have hsearch : searchMII (p ++ ('M' :: 'I' :: 'I' :: (body ++ t)))
      = some ('M' :: 'I' :: 'I' :: body) := by
    rw [searchMII_skip p _ hleft]
    have hm := matchRun_at_start body t hne hcl ht
    simp only [searchMII, hm]
  have hall : ∀ c ∈ 'M' :: 'I' :: 'I' :: body, runClass c = true := by
    intro c hc
    rcases List.mem_cons.mp hc with h | hc2
    · subst h; decide
    rcases List.mem_cons.mp hc2 with h | hc3
    · subst h; decide
    rcases List.mem_cons.mp hc3 with h | hc4
    · subst h; decide
    · exact hcl c hc4
  simp only [clean_rtf_to_base64, hsearch, Option.some.injEq]
  exact filter_strip_eq_b64 _ hall

/-- Witness for C2: the input `xMIIa b\;` cleans to `MIIab`. -/
theorem clean_extracts_run_witness :
    clean_rtf_to_base64
        (['x'] ++ ('M' :: 'I' :: 'I' :: (['a', ' ', '\\', 'b'] ++ [';'])))
      = some (('M' :: 'I' :: 'I' :: ['a', ' ', '\\', 'b']).filter b64Char) :=
  clean_extracts_run ['x'] ['a', ' ', '\\', 'b'] [';'] (by decide) (by decide)
    (by decide)
    (by
      intro c hc
      have h2 : c = ';' := by simpa using hc.symm
      subst h2
      decide)

/-- C5: a processed input file whose content contains no `MII` run makes
clean_rtf_to_base64 return `None`; the loop body prints the per-file
failure message and derives no output file for it. -/
theorem clean_no_match (fs : String → Option (List Char)) (f : String)
    (s : List Char) (hfs : fs (joinPath base_dir f) = some s)
    (hno : ∀ i, matchStartAt s i = false) :
    clean_rtf_to_base64 s = none ∧
      processFile fs f = some (CleanEvent.failed f) := by
  have hc : clean_rtf_to_base64 s = none := by
    simp only [clean_rtf_to_base64, searchMII_none s hno]
  exact ⟨hc, by simp [processFile, hfs, hc]⟩

/-- Witness for C5: content `hi` has no run. -/
theorem clean_no_match_witness :
    clean_rtf_to_base64 ['h', 'i'] = none ∧
      processFile (fun _ => some ['h', 'i']) "a.rtf"
        = some (CleanEvent.failed "a.rtf") :=
  clean_no_match (fun _ => some ['h', 'i']) "a.rtf" ['h', 'i'] rfl
    (noRunAll ['h', 'i'] (by decide))

/-- C9: every non-None result of clean_rtf_to_base64 is a nonempty string
that begins with `MII` and contains only base64-alphabet characters. -/
theorem clean_result_base64 (s out : List Char)
    (h : clean_rtf_to_base64 s = some out) :
    out ≠ [] ∧ out.take 3 = ['M', 'I', 'I'] ∧ ∀ c ∈ out, b64Char c = true := by
  cases hs : searchMII s with
  | none => simp [clean_rtf_to_base64, hs] at h
  | some raw =>
    simp only [clean_rtf_to_base64, hs, Option.some.injEq] at h
    obtain ⟨u, hraw, hu⟩ := searchMII_some s raw hs
    subst hraw
    have hstep : ('M' :: 'I' :: 'I' :: u).filter (fun c => !stripClass c)
        = 'M' :: 'I' :: 'I' :: u.filter (fun c => !stripClass c) := rfl
    rw [hstep] at h
    rw [← h]
    refine ⟨by simp, rfl, ?_⟩
    intro c hc
    rcases List.mem_cons.mp hc with h1 | hc2
    · subst h1; decide
    rcases List.mem_cons.mp hc2 with h1 | hc3
    · subst h1; decide
    rcases List.mem_cons.mp hc3 with h1 | hc4
    · subst h1; decide
    · have hmem := List.mem_filter.mp hc4
      rw [← run_not_strip c (hu c hmem.1)]
      exact hmem.2

/-- Witness for C9: cleaning `MIIab` yields `MIIab`. -/
theorem clean_result_base64_witness :
    (['M', 'I', 'I', 'a', 'b'] : List Char) ≠ [] ∧
      (['M', 'I', 'I', 'a', 'b'] : List Char).take 3 = ['M', 'I', 'I'] ∧
      ∀ c ∈ (['M', 'I', 'I', 'a', 'b'] : List Char), b64Char c = true :=
  clean_result_base64 ['M', 'I', 'I', 'a', 'b'] ['M', 'I', 'I', 'a', 'b']
    (by decide)


/-- C4: for every input with no occurrence of `<?xml`, the Plist Extractor
prints the line "NO <?xml found in data!" and exits with status 1 (and
writes nothing). -/
theorem extract_no_xml_message (data : List Char)
    (h : ∀ k, occursAt xmlDecl data k = false) :
    runExtract 3 data = ⟨1, none, true⟩ := by
  have hX : hasXmlDecl data = false := by
    unfold hasXmlDecl
    rw [findFirstBelow_none _ _ fun k _ => h k]
    rfl
  have hfind : findFirstBelow (canMatchAt data) data.length = none :=
    findFirstBelow_none _ _ fun k _ => by simp [canMatchAt, h k]
  have hext : extractPlist data = none := by
    simp only [extractPlist, hfind]
  simp [runExtract, hext, hX]

/-- Witness for C4: the empty input. -/
theorem extract_no_xml_message_witness :
    runExtract 3 [] = ⟨1, none, true⟩ :=
  extract_no_xml_message []
    (by
      intro k
      simp [occursAt, List.drop_nil, xmlDecl])

/-- C7: the exit code is 0 exactly when extraction succeeds and the span is
written; it is 1 when the script is invoked with an argument count other
than two (`len(sys.argv) ≠ 3`) and when extraction fails; no other exit
codes occur. -/
theorem extract_exit_codes (argc : Nat) (data : List Char) :
    ((runExtract argc data).exitCode = 0 ↔
      argc = 3 ∧ (extractPlist data).isSome = true ∧
        (runExtract argc data).written = extractPlist data) ∧
    (argc ≠ 3 → (runExtract argc data).exitCode = 1) ∧
    (extractPlist data = none → (runExtract argc data).exitCode = 1) ∧
    ((runExtract argc data).exitCode = 0 ∨
      (runExtract argc data).exitCode = 1) := by
  by_cases h3 : argc = 3
  · subst h3
    cases hext : extractPlist data with
    | none => simp [runExtract, hext]
    | some c => simp [runExtract, hext]
  · simp [runExtract, h3]

/-- Witness for C7: wrong argument count exits 1. -/
theorem extract_exit_codes_witness : (runExtract 2 []).exitCode = 1 :=
  (extract_exit_codes 2 []).2.1 (by decide)

/-- C10: on every failure path of the Plist Extractor (wrong argument count
or pattern not found), no write to the output path occurs. -/
theorem extract_no_write_on_failure (argc : Nat) (data : List Char)
    (h : (runExtract argc data).exitCode = 1) :
    (runExtract argc data).written = none := by
  by_cases h3 : argc = 3
  · subst h3
    cases hext : extractPlist data with
    | none => simp [runExtract, hext]
    | some c => simp [runExtract, hext] at h
  · simp [runExtract, h3]

/-- Witness for C10: wrong argument count writes nothing. -/
theorem extract_no_write_on_failure_witness :
    (runExtract 2 []).exitCode = 1 ∧ (runExtract 2 []).written = none :=
  ⟨by decide, extract_no_write_on_failure 2 [] (by decide)⟩

/-- C3: any produced output derives from one contiguous sub-sequence of the
input: the extractor's output is an exact contiguous substring of its
input, and the cleaner's output is a contiguous substring of its input
with individual characters deleted — no reordering, no characters from
outside that substring. -/
theorem output_contiguous :
    (∀ data out, extractPlist data = some out → out <:+: data) ∧
    (∀ s out, clean_rtf_to_base64 s = some out →
      ∃ r, r <:+: s ∧ List.Sublist out r) := by
  constructor
  · intro data out h
    cases hfind : findFirstBelow (canMatchAt data) data.length with
    | none => simp [extractPlist, hfind] at h
    | some i =>
      cases hlast : lastEndFrom data (i + 5) with
      | none => simp [extractPlist, hfind, hlast] at h
      | some j =>
        simp only [extractPlist, hfind, hlast, Option.some.injEq] at h
        refine ⟨data.take i, (data.drop i).drop (j + 8 - i), ?_⟩
        rw [← h, List.append_assoc, List.take_append_drop,
          List.take_append_drop]
  · intro s out h
    cases hs : searchMII s with
    | none => simp [clean_rtf_to_base64, hs] at h
    | some raw =>
      simp only [clean_rtf_to_base64, hs, Option.some.injEq] at h
      exact ⟨raw, searchMII_within s raw hs, h ▸ List.filter_sublist raw⟩

/-- Witness for C3 at concrete inputs for both tools. -/
theorem output_contiguous_witness :
    (['<', '?', 'x', 'm', 'l', '<', '/', 'p', 'l', 'i', 's', 't', '>'] : List Char)
        <:+: ['<', '?', 'x', 'm', 'l', '<', '/', 'p', 'l', 'i', 's', 't', '>'] ∧
      ∃ r, r <:+: (['M', 'I', 'I', ' ', 'a'] : List Char) ∧
        List.Sublist (['M', 'I', 'I', 'a'] : List Char) r :=
  ⟨output_contiguous.1 ['<', '?', 'x', 'm', 'l', '<', '/', 'p', 'l', 'i', 's', 't', '>']
      ['<', '?', 'x', 'm', 'l', '<', '/', 'p', 'l', 'i', 's', 't', '>'] (by decide),
    output_contiguous.2 ['M', 'I', 'I', ' ', 'a'] ['M', 'I', 'I', 'a'] (by decide)⟩

/-- C6 as stated is false: with the first hardcoded file missing and the
second present and cleanable, the uncaught `FileNotFoundError` aborts the
run at the first file and the second file is never processed. -/
theorem cleaner_aborts_on_missing_file :
    runCleaner (fun p =>
      if p = joinPath base_dir "profile_base64.txt.rtf"
      then some ['M', 'I', 'I', 'a'] else none)
      = [CleanEvent.crashed "p12_base64.txt.rtf"] := by decide

/-- C6 amended: a no-match failure is reported via a console message and
processing continues with the remaining files; but a missing input file
raises an uncaught exception that aborts the run, so the remaining files
are not processed. -/
theorem cleaner_error_handling (fs : String → Option (List Char))
    (f : String) (rest : List String) :
    (fs (joinPath base_dir f) = none →
      runLoop fs (f :: rest) = [CleanEvent.crashed f]) ∧
    (∀ s, fs (joinPath base_dir f) = some s →
      clean_rtf_to_base64 s = none →
      runLoop fs (f :: rest) = CleanEvent.failed f :: runLoop fs rest) := by
  constructor
  · intro h
    simp [runLoop, processFile, h]
  · intro s hs hc
    simp [runLoop, processFile, hs, hc]

/-- Witness for the amended C6: a missing file crashes the loop, and a
no-match file lets the loop continue. -/
theorem cleaner_error_handling_witness :
    runLoop (fun _ => none) ("a.rtf" :: ["b.rtf"])
        = [CleanEvent.crashed "a.rtf"] ∧
      runLoop (fun _ => some ['h', 'i']) ("a.rtf" :: ["b.rtf"])
        = CleanEvent.failed "a.rtf"
            :: runLoop (fun _ => some ['h', 'i']) ["b.rtf"] :=
  ⟨(cleaner_error_handling (fun _ => none) "a.rtf" ["b.rtf"]).1 rfl,
    (cleaner_error_handling (fun _ => some ['h', 'i']) "a.rtf" ["b.rtf"]).2
      ['h', 'i'] rfl
      (clean_no_match (fun _ => some ['h', 'i']) "a.rtf" ['h', 'i'] rfl
        (noRunAll ['h', 'i'] (by decide))).1⟩

theorem processFile_cleaned_name (fs : String → Option (List Char))
    {g f out : String} {c : List Char}
    (h : processFile fs g = some (CleanEvent.cleaned f out c)) :
    f = g ∧ out = joinPath base_dir (outName g) := by
  cases hg : fs (joinPath base_dir g) with
  | none => simp [processFile, hg] at h
  | some content =>
    cases hc : clean_rtf_to_base64 content with
    | none => simp [processFile, hg, hc] at h
    | some cl =>
      simp only [processFile, hg, hc, Option.some.injEq] at h
      obtain ⟨h1, h2, _⟩ := CleanEvent.cleaned.inj h
      exact ⟨h1.symm, h2.symm⟩

/-- C8: every successful cleaning of a hardcoded input file `N.txt.rtf`
writes the cleaned string to the sibling path of `N_clean.txt` in the same
hardcoded directory, the name being the fixed `.txt.rtf` to `_clean.txt`
replacement. -/
theorem cleaner_output_names (fs : String → Option (List Char))
    (f out : String) (c : List Char)
    (h : CleanEvent.cleaned f out c ∈ runCleaner fs) :
    (f = "p12_base64.txt.rtf" ∧
        out = joinPath base_dir "p12_base64_clean.txt") ∨
      (f = "profile_base64.txt.rtf" ∧
        out = joinPath base_dir "profile_base64_clean.txt") := by
  unfold runCleaner secretFiles at h
  cases h1 : processFile fs "p12_base64.txt.rtf" with
  | none =>
    simp only [runLoop, h1] at h
    simp at h
  | some e =>
    simp only [runLoop, h1] at h
    rcases List.mem_cons.mp h with he | h2
    · left
      rw [← he] at h1
      obtain ⟨hf, hout⟩ := processFile_cleaned_name fs h1
      refine ⟨hf, ?_⟩
      rw [hout]
      have hn : outName "p12_base64.txt.rtf" = "p12_base64_clean.txt" := by
        decide
      rw [hn]
    · cases h2' : processFile fs "profile_base64.txt.rtf" with
      | none =>
        simp only [runLoop, h2'] at h2
        simp at h2
      | some e2 =>
        simp only [runLoop, h2'] at h2
        rcases List.mem_cons.mp h2 with he2 | h3
        · right
          rw [← he2] at h2'
          obtain ⟨hf, hout⟩ := processFile_cleaned_name fs h2'
          refine ⟨hf, ?_⟩
          rw [hout]
          have hn : outName "profile_base64.txt.rtf"
              = "profile_base64_clean.txt" := by decide
          rw [hn]
        · simp [runLoop] at h3

/-- Witness for C8: a file system on which the first file cleans
successfully. -/
theorem cleaner_output_names_witness :
    ("p12_base64.txt.rtf" = "p12_base64.txt.rtf" ∧
        joinPath base_dir "p12_base64_clean.txt"
          = joinPath base_dir "p12_base64_clean.txt") ∨
      ("p12_base64.txt.rtf" = "profile_base64.txt.rtf" ∧
        joinPath base_dir "p12_base64_clean.txt"
          = joinPath base_dir "profile_base64_clean.txt") :=
  cleaner_output_names (fun _ => some ['M', 'I', 'I', 'a'])
    "p12_base64.txt.rtf" (joinPath base_dir "p12_base64_clean.txt")
    ['M', 'I', 'I', 'a'] (by decide)

example : clean_rtf_to_base64 ("pre MIIa \\\r\nbc; post".toList)
    = some ("MIIabc".toList) := by decide

example : clean_rtf_to_base64 ("hello".toList) = none := by decide

example : outName "p12_base64.txt.rtf" = "p12_base64_clean.txt" := by decide

end CommunityPulse
